import Mathlib

/-!
Verification of the activedop annotation tool (src/app.py, src/worker.py)
against its natural-language specification.  Python functions are shallowly
embedded as Lean definitions; probabilities (Python floats) are modelled as
rationals, trees as an inductive type, and the per-worker parser state as an
explicit state record.
-/

namespace Activedop

/-! ### worker.py: the candidate pipeline of `getparses` -/

/-- A raw parse candidate as produced by `PARSER.parse`: the tuples
`(treestr, prob, deriv)` iterated over in `getparses` (src/worker.py:58).
The derivation trace is abstracted to a numeric identifier. -/
structure RawCand where
  treestr : String
  prob : ℚ
  deriv : Nat
deriving DecidableEq, Repr

/-- An entry of the `OrderedDict` built in `getparses` (src/worker.py:57-69):
the tuple `(prob, tree, treestr, deriv)`, keyed by `str(tree)`.  The
post-processed tree is represented by its rendered string. -/
structure Entry where
  prob : ℚ
  tree : String
  treestr : String
  deriv : Nat
deriving DecidableEq, Repr

/-- `sum(a[1] for a in parsetrees)` (src/worker.py:113). -/
def probmass (l : List RawCand) : ℚ := (l.map RawCand.prob).sum

/-- Embeds `applythreshold` (src/worker.py:108-115): keep candidates whose
normalized probability is strictly greater than `1 / len(parsetrees)`,
unless there are at most 3 candidates. -/
def applythreshold (l : List RawCand) : List RawCand :=
  if l.length ≤ 3 then l
  else l.filter (fun a => decide ((1 : ℚ) / l.length < a.prob / probmass l))

/-- The comparison performed by `sorted(..., key=itemgetter(1), reverse=True)`
on raw candidates (src/worker.py:56): descending by probability. -/
abbrev candGE (a b : RawCand) : Prop := b.prob ≤ a.prob

/-- The comparison performed by `sorted(..., key=itemgetter(0), reverse=True)`
on dict entries (src/worker.py:73-74): descending by probability. -/
abbrev entryGE (a b : Entry) : Prop := b.prob ≤ a.prob

instance : IsTotal RawCand candGE := ⟨fun a b => le_total b.prob a.prob⟩

instance : IsTrans RawCand candGE := ⟨fun _ _ _ h1 h2 => le_trans h2 h1⟩

instance : IsTotal Entry entryGE := ⟨fun a b => le_total b.prob a.prob⟩

instance : IsTrans Entry entryGE := ⟨fun _ _ _ h1 h2 => le_trans h2 h1⟩

/-- Python's `sorted` is a stable sort; `List.insertionSort` with a
non-strict comparison is the corresponding stable sort in Lean. -/
def sortCandsDesc (l : List RawCand) : List RawCand := List.insertionSort candGE l

/-- Stable descending sort of dict entries (src/worker.py:73-74). -/
def sortEntriesDesc (l : List Entry) : List Entry := List.insertionSort entryGE l

/-- `parsetrees_[y] = (prob + oldprob, tree, treestr, deriv)`
(src/worker.py:66-67): update the existing entry for key `k` in place,
adding the new probability and keeping the previously stored fields. -/
def updateFirst (k : String) (p : ℚ) : List Entry → List Entry
  | [] => []
  | e :: d =>
      if e.tree = k then { e with prob := p + e.prob } :: d
      else e :: updateFirst k p d

/-- One iteration of the deduplication loop of `getparses`
(src/worker.py:58-69), acting on the ordered association list `d` that
models the `OrderedDict`; `pp` models the composition of
`PARSER.postprocess`, `handlefunctions`, `domorph` and `str`, mapping a raw
derivation string to the rendering of its post-processed tree. -/
def odInsert (pp : String → String) (d : List Entry) (c : RawCand) : List Entry :=
  let k := pp c.treestr
  if (d.find? (fun e => e.tree == k)).isSome then updateFirst k c.prob d
  else d ++ [⟨c.prob, k, c.treestr, c.deriv⟩]

/-- The deduplication loop of `getparses` (src/worker.py:57-69) over a
candidate list. -/
def dedup (pp : String → String) (l : List RawCand) : List Entry :=
  l.foldl (odInsert pp) []

/-- Lines 56-74 of src/worker.py: sort raw candidates by probability
descending, deduplicate by post-processed tree, and sort the resulting
entries by (summed) probability descending. -/
def dedupsort (pp : String → String) (l : List RawCand) : List Entry :=
  sortEntriesDesc (dedup pp (sortCandsDesc l))

/-- The full candidate pipeline of `getparses` (src/worker.py:55-74):
`applythreshold` on the raw list, then sorting and deduplication. -/
def getparsesCands (pp : String → String) (l : List RawCand) : List Entry :=
  dedupsort pp (applythreshold l)

/-- Total mass of a list of dict entries. -/
def entrymass (l : List Entry) : ℚ := (l.map Entry.prob).sum

/-- Modelled from the spec: "After deduplication, apply a pruning rule: if
more than 3 candidates remain, drop any whose renormalized probability mass
is below `1 / count`" — the same threshold rule as `applythreshold`, but
acting on the deduplicated entries.  Used only to compare the spec's claimed
pipeline order against the source's. -/
def spec_applythresholdEntries (l : List Entry) : List Entry :=
  if l.length ≤ 3 then l
  else l.filter (fun a => decide ((1 : ℚ) / l.length < a.prob / entrymass l))

/-- Modelled from the spec: the claimed pipeline order — deduplicate first,
then prune. -/
def spec_getparsesCands (pp : String → String) (l : List RawCand) : List Entry :=
  spec_applythresholdEntries (dedupsort pp l)

/-- Summed probability of all raw candidates whose post-processed tree
renders as `k`. -/
def keyProb (pp : String → String) (l : List RawCand) (k : String) : ℚ :=
  ((l.filter (fun c => pp c.treestr == k)).map RawCand.prob).sum

/-- The probability stored in the ordered association list for key `k`
(0 when the key is absent). -/
def probD (d : List Entry) (k : String) : ℚ :=
  ((d.find? (fun e => e.tree == k)).map Entry.prob).getD 0

/-- Concrete post-processing function used in counterexamples: the raw
derivation strings `"a1"` and `"a2"` are spuriously ambiguous derivations
normalizing to the identical tree `"T1"`; any other derivation string is
its own tree. -/
def pp0 : String → String := fun s =>
  if s = "a1" then "T1" else if s = "a2" then "T1" else s

/-- Concrete candidate list: two derivations of the same tree
(probabilities 1/5 and 1/10) and one other derivation (probability 3/10);
the `deriv` field records the original position of each candidate. -/
def ex2 : List RawCand := [⟨"a1", 1/5, 0⟩, ⟨"a2", 1/10, 1⟩, ⟨"b", 3/10, 2⟩]

/-- Concrete candidate list with 4 entries of total mass 1 whose two
duplicate derivations (of tree `"T1"`, probability 1/5 each) both fall
below the `1/4` threshold although their merged probability 2/5 is well
above it. -/
def ex1 : List RawCand :=
  [⟨"a1", 1/5, 0⟩, ⟨"a2", 1/5, 1⟩, ⟨"b", 7/20, 2⟩, ⟨"c", 1/4, 3⟩]

/-! ### worker.py: memoization and grammar augmentation (C5) -/

/-- The mutable state of one worker process: the (retrainable) parser model
and the `functools.lru_cache` memo of `getparses` (src/worker.py:38-42).
Cache eviction only removes entries, so it is immaterial to the staleness
property and is not modelled. -/
structure WorkerState (M K R : Type) where
  model : M
  cache : List (K × R)

/-- Lookup in the memo cache. -/
def cacheLookup {K R : Type} [DecidableEq K] (k : K) : List (K × R) → Option R
  | [] => none
  | (k1, r) :: t => if k1 = k then some r else cacheLookup k t

/-- A dispatched `getparses` call (src/worker.py:38-77): return the memoized
result if the key is cached, otherwise compute against the current model
(`parse`) and memoize.  Returns the result and the updated state. -/
def getparsesStep {M K R : Type} [DecidableEq K] (parse : M → K → R)
    (s : WorkerState M K R) (k : K) : R × WorkerState M K R :=
  match cacheLookup k s.cache with
  | some r => (r, s)
  | none => (parse s.model k, ⟨s.model, (k, parse s.model k) :: s.cache⟩)

/-- Embeds `augment` (src/worker.py:80-84): `PARSER.augmentgrammar(trees,
sents)` followed by `getparses.cache_clear()`. -/
def augmentStep {M K R T : Type} (augmentModel : M → T → M)
    (s : WorkerState M K R) (ts : T) : WorkerState M K R :=
  ⟨augmentModel s.model ts, []⟩

/-- A sequence of dispatched `getparses` calls. -/
def runGetparses {M K R : Type} [DecidableEq K] (parse : M → K → R)
    (s : WorkerState M K R) (ks : List K) : WorkerState M K R :=
  ks.foldl (fun s k => (getparsesStep parse s k).2) s

/-- Every cached result agrees with the current model. -/
def CacheConsistent {M K R : Type} (parse : M → K → R)
    (s : WorkerState M K R) : Prop :=
  ∀ k r, (k, r) ∈ s.cache → r = parse s.model k

/-! ### app.py: startup staleness check (C8) -/

/-- One entry `(lineno, entropy, sentence)` of the persisted rankings file
(`<filename>.rankings.json`, src/app.py:120-123). -/
structure QueueItem where
  lineno : Nat
  ent : ℚ
  sent : String
deriving DecidableEq, Repr

/-- The part of the filesystem observed by `initapp` (src/app.py:126-148):
the sentences file (already split into lines) and its modification time,
and the rankings file, its presence, modification time and parsed JSON
contents. -/
structure SentFS where
  sentLines : List String
  sentMtime : Int
  rankingPresent : Bool
  rankingMtime : Int
  rankingQueue : List QueueItem

/-- The globals set by a successful `initapp`: `SENTENCES` and `QUEUE`. -/
structure InitState where
  sentences : List String
  queue : List QueueItem

/-- Embeds `initapp` (src/app.py:126-148).  The three configuration checks
are modelled by booleans; the rankings file is loaded into `QUEUE` only when
it exists and is strictly newer than the sentences file, otherwise a
`ValueError` is raised. -/
def initapp (sentConfigured grammarConfigured accountsConfigured : Bool)
    (fs : SentFS) : Except String InitState :=
  if sentConfigured = false then .error "SENTENCES not configured"
  else if grammarConfigured = false then .error "GRAMMAR not configured"
  else if accountsConfigured = false then .error "ACCOUNTS not configured"
  else if fs.rankingPresent && decide (fs.sentMtime < fs.rankingMtime) then
    .ok ⟨fs.sentLines, fs.rankingQueue⟩
  else .error "no rankings for sentences, or sentences have been modified"

/-! ### app.py: first unannotated sentence (C10) -/

/-- The loop of `firstunannotated` (src/app.py:196-200):
`for sentno, (lineno, _, _) in enumerate(QUEUE, 1)`. -/
def firstunannotatedAux (annotated : List Nat) : Nat → List QueueItem → Nat
  | _, [] => 1
  | sentno, q :: rest =>
      if q.lineno ∈ annotated then firstunannotatedAux annotated (sentno + 1) rest
      else sentno

/-- Embeds `firstunannotated` (src/app.py:187-200).  `annotated` is the set
of original line numbers stored for this user in the `entries` table (the
database column is called `sentno` but stores original indices, cf. the
comment at src/app.py:196). -/
def firstunannotated (annotated : List Nat) (queue : List QueueItem) : Nat :=
  firstunannotatedAux annotated 1 queue

/-! ### app.py: the tree editor (C3, C4) -/

/-- A discodop `ParentedTree` as manipulated by the annotation views: a
child is either a bare token index (`isinstance(child, int)`) or an
internal node with a label and children.  A node whose first child is a
token index is a POS node. -/
inductive PTree where
  | term (i : Nat)
  | node (label : String) (children : List PTree)

/-- Nodes are addressed by their path from the root (the sequence of child
indices); `dt.nodes[nodeid]` resolves a node id to a node object, which the
path model renders as looking up the subtree at a path.  Object identity
(`is` checks) corresponds to path equality, and membership of `y` in
`x.subtrees()` corresponds to `x` being a prefix of `y`'s path. -/
def subtreeAt : PTree → List Nat → Option PTree
  | t, [] => some t
  | .term _, _ :: _ => none
  | .node _ cs, i :: p =>
      match cs[i]? with
      | some c => subtreeAt c p
      | none => none

/-- Replace the subtree at a path. -/
def replaceAt : PTree → List Nat → PTree → Option PTree
  | _, [], new => some new
  | .term _, _ :: _, _ => none
  | .node l cs, i :: p, new =>
      match cs[i]? with
      | some c => (replaceAt c p new).map fun c1 => .node l (cs.set i c1)
      | none => none

/-- Remove the node at a (nonempty) path from its parent's child list:
`node.remove(x)` (src/app.py:755). -/
def removeAt : PTree → List Nat → Option PTree
  | _, [] => none
  | .term _, _ :: _ => none
  | .node l cs, [i] =>
      if i < cs.length then some (.node l (cs.eraseIdx i)) else none
  | .node l cs, i :: j :: p =>
      match cs[i]? with
      | some c => (removeAt c (j :: p)).map fun c1 => .node l (cs.set i c1)
      | none => none

/-- Replace the (internal) node at a nonempty path by its own children,
in place in its parent's child list: `y[i:i + 1] = children`
(src/app.py:712-717). -/
def spliceAt : PTree → List Nat → Option PTree
  | _, [] => none
  | .term _, _ :: _ => none
  | .node l cs, [i] =>
      match cs[i]? with
      | some (.node _ cs1) => some (.node l (cs.take i ++ cs1 ++ cs.drop (i + 1)))
      | _ => none
  | .node l cs, i :: j :: p =>
      match cs[i]? with
      | some c => (spliceAt c (j :: p)).map fun c1 => .node l (cs.set i c1)
      | none => none

/-- Append a new child to the node at a path:
`dt.nodes[newparent].append(x)` (src/app.py:756). -/
def appendChildAt : PTree → List Nat → PTree → Option PTree
  | .term _, [], _ => none
  | .node l cs, [], new => some (.node l (cs ++ [new]))
  | .term _, _ :: _, _ => none
  | .node l cs, i :: p, new =>
      match cs[i]? with
      | some c => (appendChildAt c p new).map fun c1 => .node l (cs.set i c1)
      | none => none

mutual
/-- Smallest token index dominated by a node (the sort key used by
`discodop.treetransforms.canonicalize` to order siblings). -/
def minLeaf : PTree → Nat
  | .term i => i
  | .node _ cs => minLeafList cs
def minLeafList : List PTree → Nat
  | [] => 0
  | [t] => minLeaf t
  | t :: t1 :: ts => min (minLeaf t) (minLeafList (t1 :: ts))
end

mutual
/-- Models `discodop.treetransforms.canonicalize` (imported at
src/app.py:47, a library external to this repository): recursively order
each node's children by their smallest dominated token index (stable). -/
def canonicalize : PTree → PTree
  | .term i => .term i
  | .node l cs =>
      .node l (List.insertionSort (fun a b => minLeaf a ≤ minLeaf b)
        (canonicalizeList cs))
def canonicalizeList : List PTree → List PTree
  | [] => []
  | t :: ts => canonicalize t :: canonicalizeList ts
end

/-- `isinstance(x[0], int)` (src/app.py:709): the node is a POS node, i.e.
its first child is a bare token index. -/
def posNode : PTree → Bool
  | .node _ (.term _ :: _) => true
  | _ => false

/-- Outcome of an edit request: the error text (empty on success), the tree
rendered back to the client, and whether the session edit-action counter
was incremented (src/app.py:766-768: it is incremented iff the error text
is empty). -/
structure EditResult where
  error : String
  tree : PTree
  incremented : Bool

/-- The error text of src/app.py:748-749. -/
def descendantError : String :=
  "ERROR: cannot re-attach subtree under (descendant of) itself\n"

/-- The error text of src/app.py:760-761 (the interpolated rendering of the
offending node is omitted from the model). -/
def onlyChildError : String :=
  "ERROR: re-attaching only child creates empty node; remove manually\n"

/-- The error text of src/app.py:710. -/
def rootPosError : String := "ERROR: cannot remove ROOT or POS node"

/-- The path of a node after the node at path `x` has been removed from
its parent: when the removal happens at an earlier sibling position on the
way to `y`, the branching index shifts down by one; every other path
(including ancestors of `x`) is unchanged.  This is how stable object
references into the mutated tree are rendered in the path model. -/
def shiftPath (x y : List Nat) : List Nat :=
  let q := x.dropLast
  let i := x.getLastD 0
  if q.isPrefixOf y ∧ q.length < y.length then
    let j := y.getD q.length 0
    if i < j then q ++ (j - 1) :: y.drop (q.length + 1) else y
  else y

/-- Embeds the re-attach branch of `reattach` (src/app.py:736-762): move
the existing node at path `x` to become a child of the node at path `y`.
Returns `none` when either node id does not resolve (a `KeyError` in the
source).  Rejected (original tree returned, counter not incremented) when
`y` is `x` or a descendant of `x`, and when `x` is the only child of its
parent; otherwise `x` is removed from its parent, appended to `y`'s
children, and the result canonicalized. -/
def reattach (t : PTree) (x y : List Nat) : Option EditResult :=
  match subtreeAt t x, subtreeAt t y with
  | some xt, some _ =>
      if x.isPrefixOf y then some ⟨descendantError, t, false⟩
      else
        match subtreeAt t x.dropLast with
        | some (.node _ cs) =>
            if 1 < cs.length then
              match removeAt t x with
              | some t1 =>
                  match appendChildAt t1 (shiftPath x y) xt with
                  | some t2 => some ⟨"", canonicalize t2, true⟩
                  | none => none
              | none => none
            else some ⟨onlyChildError, t, false⟩
        | _ => none
  | _, _ => none

/-- Embeds the delete-node branch of `reattach` (src/app.py:704-719):
remove the node at path `p` by replacing it, in its parent's child list,
with its own children.  Rejected when `p` is the root or a POS node; the
source raises `IndexError` on a childless node (`x[0]`), rendered as
`none`. -/
def deletenode (t : PTree) (p : List Nat) : Option EditResult :=
  match subtreeAt t p with
  | none => none
  | some (.term _) => none
  | some (.node _ cs) =>
      if p = [] then some ⟨rootPosError, t, false⟩
      else
        match cs with
        | [] => none
        | .term _ :: _ => some ⟨rootPosError, t, false⟩
        | .node _ _ :: _ =>
            match spliceAt t p with
            | some t1 => some ⟨"", canonicalize t1, true⟩
            | none => none

/-- Concrete tree used in witnesses:
`(ROOT (NP (DT 0) (NN 1)) (VB 2))`. -/
def tEx : PTree :=
  .node "ROOT" [.node "NP" [.node "DT" [.term 0], .node "NN" [.term 1]],
    .node "VB" [.term 2]]


/-! ### app.py: relabelling (C9) -/

/-- First character class of `LABELRE` (src/app.py:63): anything except
dash, slash and whitespace. -/
def labelCatChar (c : Char) : Bool := !(c = '-' || c = '/' || c.isWhitespace)

/-- Second character class of `LABELRE`: anything except slash and
whitespace. -/
def labelFuncChar (c : Char) : Bool := !(c = '/' || c.isWhitespace)

/-- Third character class of `LABELRE`: any non-whitespace character. -/
def labelMorphChar (c : Char) : Bool := !c.isWhitespace

/-- `LABELRE.match(label)` (src/app.py:63): the label grammar
`category[-function][/morph]`, e.g. `"NN-SB/Nom"` matches with groups
`("NN", "-SB", "/Nom")`.  Returns the three groups, the optional ones as
`""` in place of `None` (mirroring the `or ''` uses at the call site). -/
def splitLabel (s : String) : Option (String × String × String) :=
  let l := s.data
  let cat := l.takeWhile labelCatChar
  let rest := l.dropWhile labelCatChar
  if cat = [] then none
  else
    match rest with
    | [] => some (⟨cat⟩, "", "")
    | '-' :: r2 =>
        let fn := r2.takeWhile labelFuncChar
        let r3 := r2.dropWhile labelFuncChar
        if fn = [] then none
        else
          match r3 with
          | [] => some (⟨cat⟩, ⟨'-' :: fn⟩, "")
          | '/' :: r4 =>
              if r4 ≠ [] ∧ r4.all labelMorphChar then
                some (⟨cat⟩, ⟨'-' :: fn⟩, ⟨'/' :: r4⟩)
              else none
          | _ => none
    | '/' :: r4 =>
        if r4 ≠ [] ∧ r4.all labelMorphChar then some (⟨cat⟩, "", ⟨'/' :: r4⟩)
        else none
    | _ => none

/-- Which query argument accompanies a `newlabel` request
(src/app.py:653-675). -/
inductive LabelArg where
  | cat (s : String)
  | func (s : String)
  | morph (s : String)

/-- The label-replacement logic of `newlabel` (src/app.py:652-673): given
the old label's `LABELRE` groups, build the new label, replacing exactly
the requested component and keeping the other two. -/
def newlabelString (old : String) (arg : LabelArg) : Option String :=
  match splitLabel old with
  | none => none
  | some (c, f, m) =>
      some (match arg with
        | .cat s => s ++ f ++ m
        | .func s => if s = "" then c ++ m else c ++ "-" ++ s ++ m
        | .morph s => if s = "" then c ++ f else c ++ f ++ "/" ++ s)

/-- Embeds the mutation performed by `newlabel` (src/app.py:635-687): the
node at path `p` gets its label replaced; the tree is then re-rendered and
returned.  NOTE the control flow of the source: `validate` is called on the
INPUT tree only (src/app.py:644), and after the replacement no validation
of any kind is performed (the FIXME at src/app.py:647 records this), so the
result is returned unconditionally. -/
def newlabel (t : PTree) (p : List Nat) (arg : LabelArg) : Option PTree :=
  match subtreeAt t p with
  | some (.node old cs) =>
      match newlabelString old arg with
      | some nl => replaceAt t p (.node nl cs)
      | none => none
  | _ => none

/-- Concrete tree used for the C9 evaluation:
`(ROOT (NN-SB/Nom 0))`. -/
def tEx3 : PTree := .node "ROOT" [.node "NN-SB/Nom" [.term 0]]


/-! ### app.py: constraint parsing (C6) -/

/-- Python `str.split(sep)` with an explicit single-character separator
(adjacent separators produce empty pieces; the result is never empty). -/
def splitOnChar (sep : Char) : List Char → List (List Char)
  | [] => [[]]
  | c :: rest =>
      let r := splitOnChar sep rest
      if c = sep then [] :: r
      else
        match r with
        | [] => [[c]]
        | h :: t => (c :: h) :: t

/-- Python `str.split(sep, 1)` followed by unpacking into two variables
(`label, span = item.split(' ', 1)`, src/app.py:1033): `none` when the
separator does not occur (the unpacking raises `ValueError`). -/
def splitFirst (sep : Char) : List Char → Option (List Char × List Char)
  | [] => none
  | c :: rest =>
      if c = sep then some ([], rest)
      else (splitFirst sep rest).map fun p => (c :: p.1, p.2)

/-- Accumulate decimal digits; `none` on a non-digit (48 is the code of
the character 0). -/
def digitsToNatAux : Nat → List Char → Option Nat
  | acc, [] => some acc
  | acc, c :: rest =>
      if c.isDigit then digitsToNatAux (acc * 10 + (c.toNat - 48)) rest
      else none

/-- Python `int(s)` restricted to an optional sign followed by decimal
digits (the only shapes reaching it here); `none` where Python raises
`ValueError`. -/
def parseInt : List Char → Option Int
  | [] => none
  | '-' :: rest =>
      if rest = [] then none else (digitsToNatAux 0 rest).map fun n => -(n : Int)
  | '+' :: rest =>
      if rest = [] then none else (digitsToNatAux 0 rest).map fun n => (n : Int)
  | l => (digitsToNatAux 0 l).map fun n => (n : Int)

/-- Python `range(b, c1)` over integers, as a list. -/
def intRange (b c1 : Int) : List Int :=
  (List.range (c1 - b).toNat).map fun k => b + k

/-- One comma-separated piece of a constraint span (src/app.py:1035-1040):
`"a-b"` expands to `range(a, b + 1)`, a single number to itself. -/
def parseRange (rng : List Char) : Option (List Int) :=
  if rng.contains '-' then
    match splitOnChar '-' rng with
    | [b, c] =>
        match parseInt b, parseInt c with
        | some bv, some cv => some (intRange bv (cv + 1))
        | _, _ => none
    | _ => none
  else (parseInt rng).map fun v => [v]

/-- The `seq` accumulated over the comma-separated ranges
(src/app.py:1034-1040). -/
def seqOfRanges : List (List Char) → Option (List Int)
  | [] => some []
  | r :: rs =>
      match parseRange r, seqOfRanges rs with
      | some a, some b => some (a ++ b)
      | _, _ => none

/-- Embeds `constr` (src/app.py:1031-1041): split a constraint item into a
label and a span at the first space, then expand the span. -/
def constr (item : List Char) : Option (String × List Int) :=
  match splitFirst ' ' item with
  | none => none
  | some (labelcs, spancs) =>
      (seqOfRanges (splitOnChar ',' spancs)).map fun seq => (⟨labelcs⟩, seq)

/-- `map(constr, ...)` with Python exception propagation: the whole parse
fails if any item fails. -/
def constrMapM : List (List Char) → Option (List (String × List Int))
  | [] => some []
  | x :: xs =>
      match constr x, constrMapM xs with
      | some cx, some cxs => some (cx :: cxs)
      | _, _ => none

/-- Strict lexicographic comparison of character lists, by code point:
Python string `<`. -/
def charListLt : List Char → List Char → Bool
  | [], [] => false
  | [], _ :: _ => true
  | _ :: _, [] => false
  | a :: as, b :: bs =>
      if a < b then true else if b < a then false else charListLt as bs

/-- Non-strict lexicographic comparison of integer lists: Python list
`<=`. -/
def intListLe : List Int → List Int → Bool
  | [], _ => true
  | _ :: _, [] => false
  | a :: as, b :: bs =>
      if a < b then true else if b < a then false else intListLe as bs

/-- Python tuple comparison on `(label, seq)` pairs as used by `sorted`
(src/app.py:1045): lexicographic on the label string, then on the index
list. -/
def pairLEb (a b : String × List Int) : Bool :=
  if charListLt a.1.data b.1.data then true
  else if charListLt b.1.data a.1.data then false
  else intListLe a.2 b.2

/-- `pairLEb` as a decidable relation, for sorting. -/
abbrev pairLE (a b : String × List Int) : Prop := pairLEb a b = true

/-- `sorted(...)` over constraint pairs (src/app.py:1044-1050). -/
def sortPairs (l : List (String × List Int)) : List (String × List Int) :=
  List.insertionSort pairLE l

/-- One side (`require` or `block`) of `parseconstraints`
(src/app.py:1043-1052): the empty string is falsy and yields `()`,
otherwise the tab-separated items are parsed and sorted. -/
def parseSide (s : String) : Option (List (String × List Int)) :=
  if s.data = [] then some []
  else (constrMapM (splitOnChar '\t' s.data)).map sortPairs

/-- Embeds `parseconstraints` (src/app.py:1026-1053); `none` models a
raised `ValueError`. -/
def parseconstraints (require block : String) :
    Option (List (String × List Int) × List (String × List Int)) :=
  match parseSide require, parseSide block with
  | some r, some b => some (r, b)
  | _, _ => none


/-! ### app.py: entropy (C7) -/

/-- Embeds `entropy` (src/app.py:1011-1023): normalize the sequence by its
total mass and return the Shannon entropy base 2 (`log(p, 2)` is
`Real.logb 2 p`); the empty sequence yields 0.  Python floats are modelled
as real numbers, which forces this single definition to be noncomputable;
all concrete values are settled through proved bounds instead of
evaluation. -/
noncomputable def entropy (seq : List ℚ) : ℝ :=
  if seq = [] then 0
  else -(((seq.map fun p : ℚ => (p : ℝ) / ((seq.sum : ℚ) : ℝ)).map
      fun p : ℝ => p * Real.logb 2 p).sum)

/-! ## Theorems -/

/-! ### C5: augmentation invalidates the parse cache -/

theorem cacheLookup_mem {K R : Type} [DecidableEq K] {k : K} {r : R} :
    ∀ {c : List (K × R)}, cacheLookup k c = some r → (k, r) ∈ c
  | [], h => by simp [cacheLookup] at h
  | (k1, r1) :: t, h => by
      by_cases hk : k1 = k
      · subst hk
        simp [cacheLookup] at h
        subst h
        exact List.mem_cons_self _ _
      · simp [cacheLookup, hk] at h
        exact List.mem_cons_of_mem _ (cacheLookup_mem h)

theorem getparsesStep_model {M K R : Type} [DecidableEq K] (parse : M → K → R)
    (s : WorkerState M K R) (k : K) :
    ((getparsesStep parse s k).2).model = s.model := by
  unfold getparsesStep
  cases h : cacheLookup k s.cache <;> simp

theorem getparsesStep_consistent {M K R : Type} [DecidableEq K]
    (parse : M → K → R) (s : WorkerState M K R) (k : K)
    (h : CacheConsistent parse s) :
    CacheConsistent parse (getparsesStep parse s k).2 := by
  unfold getparsesStep
  cases hc : cacheLookup k s.cache with
  | some r => exact h
  | none =>
      intro k1 r1 hmem
      simp only [List.mem_cons] at hmem
      rcases hmem with heq | hmem
      · rw [Prod.mk.injEq] at heq
        rw [heq.2, heq.1]
      · exact h k1 r1 hmem

theorem getparsesStep_result {M K R : Type} [DecidableEq K]
    (parse : M → K → R) (s : WorkerState M K R) (k : K)
    (h : CacheConsistent parse s) :
    (getparsesStep parse s k).1 = parse s.model k := by
  unfold getparsesStep
  cases hc : cacheLookup k s.cache with
  | some r => exact h k r (cacheLookup_mem hc)
  | none => rfl

theorem runGetparses_model {M K R : Type} [DecidableEq K] (parse : M → K → R)
    (ks : List K) : ∀ (s : WorkerState M K R),
    (runGetparses parse s ks).model = s.model := by
  induction ks with
  | nil => intro s; rfl
  | cons k ks ih =>
      intro s
      show (runGetparses parse (getparsesStep parse s k).2 ks).model = s.model
      rw [ih, getparsesStep_model]

theorem runGetparses_consistent {M K R : Type} [DecidableEq K]
    (parse : M → K → R) (ks : List K) : ∀ (s : WorkerState M K R),
    CacheConsistent parse s → CacheConsistent parse (runGetparses parse s ks) := by
  induction ks with
  | nil => intro s h; exact h
  | cons k ks ih =>
      intro s h
      exact ih _ (getparsesStep_consistent parse s k h)

/-- C5: after `augment(trees, sents)` the memoized `getparses` cache is
empty, and any subsequently dispatched `getparses` call — after any number
of intervening `getparses` dispatches, and in particular for a key cached
before the augmentation — computes its result against the retrained model
`augmentModel s.model ts`, never from the pre-augment cache. -/
theorem C5_augment_invalidates_cache {M K R T : Type} [DecidableEq K]
    (parse : M → K → R) (augmentModel : M → T → M)
    (s : WorkerState M K R) (ts : T) (ks : List K) (k : K) :
    (augmentStep augmentModel s ts).cache = [] ∧
    (runGetparses parse (augmentStep augmentModel s ts) ks).model
      = augmentModel s.model ts ∧
    (getparsesStep parse (runGetparses parse (augmentStep augmentModel s ts) ks) k).1
      = parse (augmentModel s.model ts) k := by
  have hempty : (augmentStep augmentModel s ts).cache = [] := rfl
  have hcons : CacheConsistent parse (augmentStep augmentModel s ts) := by
    intro k1 r1 hmem
    simp [augmentStep] at hmem
  have hmodel : (runGetparses parse (augmentStep augmentModel s ts) ks).model
      = augmentModel s.model ts := runGetparses_model parse ks _
  refine ⟨hempty, hmodel, ?_⟩
  rw [getparsesStep_result parse _ k (runGetparses_consistent parse ks _ hcons),
    hmodel]

/-! ### C8: startup staleness check -/

/-- C8: with the three mandatory configuration values present, `initapp`
yields a loaded queue only when the rankings file exists and is strictly
newer than the sentences file (and then the queue is exactly the persisted
ranking, never the original sentence order), and raises the `ValueError`
whenever the rankings file is absent or not newer. -/
theorem C8_staleness_check (fs : SentFS) :
    (∀ st, initapp true true true fs = .ok st →
      fs.rankingPresent = true ∧ fs.sentMtime < fs.rankingMtime ∧
      st.queue = fs.rankingQueue ∧ st.sentences = fs.sentLines) ∧
    ((fs.rankingPresent = false ∨ fs.rankingMtime ≤ fs.sentMtime) →
      initapp true true true fs =
        .error "no rankings for sentences, or sentences have been modified") := by
  have hred : initapp true true true fs =
      (if (fs.rankingPresent && decide (fs.sentMtime < fs.rankingMtime)) = true
        then Except.ok ⟨fs.sentLines, fs.rankingQueue⟩
        else Except.error
          "no rankings for sentences, or sentences have been modified") := rfl
  constructor
  · intro st h
    rw [hred] at h
    split at h
    · rename_i hcond
      rw [Bool.and_eq_true, decide_eq_true_eq] at hcond
      cases h
      exact ⟨hcond.1, hcond.2, rfl, rfl⟩
    · cases h
  · intro hstale
    rw [hred]
    have hfalse : (fs.rankingPresent && decide (fs.sentMtime < fs.rankingMtime))
        = false := by
      rcases hstale with hp | hm
      · rw [hp, Bool.false_and]
      · rw [decide_eq_false (not_lt.mpr hm), Bool.and_false]
    rw [hfalse]
    rfl

theorem C8_staleness_check_witness :
    initapp true true true ⟨["s"], 5, true, 3, []⟩ =
      .error "no rankings for sentences, or sentences have been modified" :=
  (C8_staleness_check ⟨["s"], 5, true, 3, []⟩).2 (Or.inr (by decide))

/-! ### C10: first unannotated sentence -/

theorem firstunannotatedAux_all (annotated : List Nat) :
    ∀ (l : List QueueItem) (n : Nat), (∀ q ∈ l, q.lineno ∈ annotated) →
      firstunannotatedAux annotated n l = 1
  | [], _, _ => rfl
  | q :: rest, n, h => by
      rw [firstunannotatedAux, if_pos (h q (List.mem_cons_self _ _))]
      exact firstunannotatedAux_all annotated rest (n + 1)
        (fun q hq => h q (List.mem_cons_of_mem _ hq))

theorem firstunannotatedAux_first (annotated : List Nat) :
    ∀ (l : List QueueItem) (i n : Nat) (qi : QueueItem), l[i]? = some qi →
      qi.lineno ∉ annotated →
      (∀ j, j < i → ∀ q, l[j]? = some q → q.lineno ∈ annotated) →
      firstunannotatedAux annotated n l = n + i
  | [], i, n, qi, hget, _, _ => by simp at hget
  | q :: rest, 0, n, qi, hget, hqi, _ => by
      simp at hget
      subst hget
      rw [firstunannotatedAux, if_neg hqi]
      omega
  | q :: rest, i + 1, n, qi, hget, hqi, hall => by
      have hq : q.lineno ∈ annotated := by
        have := hall 0 (Nat.succ_pos i) q
        simp at this
        exact this
      rw [firstunannotatedAux, if_pos hq]
      have := firstunannotatedAux_first annotated rest i (n + 1) qi
        (by simpa using hget) hqi
        (fun j hj q1 hq1 => hall (j + 1) (Nat.succ_lt_succ hj) q1 (by simpa using hq1))
      omega

/-- C10: `firstunannotated` returns the 1-based rank of the first entry in
the priority queue whose original line number has no stored annotation by
the user, and returns 1 (the rank of the highest-priority sentence) when
every queued sentence is already annotated. -/
theorem C10_firstunannotated (annotated : List Nat) (queue : List QueueItem) :
    (∀ i qi, queue[i]? = some qi → qi.lineno ∉ annotated →
      (∀ j, j < i → ∀ q, queue[j]? = some q → q.lineno ∈ annotated) →
      firstunannotated annotated queue = i + 1) ∧
    ((∀ q ∈ queue, q.lineno ∈ annotated) → firstunannotated annotated queue = 1) := by
  constructor
  · intro i qi hget hqi hall
    rw [firstunannotated, firstunannotatedAux_first annotated queue i 1 qi hget hqi hall]
    omega
  · intro h
    exact firstunannotatedAux_all annotated queue 1 h

theorem C10_firstunannotated_witness :
    firstunannotated [5, 7] [⟨5, 0, "a"⟩, ⟨7, 0, "b"⟩] = 1 :=
  (C10_firstunannotated [5, 7] [⟨5, 0, "a"⟩, ⟨7, 0, "b"⟩]).2 (by decide)

/-! ### C1, C2: lemmas about the deduplication fold -/

theorem updateFirst_map_tree (k : String) (p : ℚ) :
    ∀ d : List Entry, (updateFirst k p d).map Entry.tree = d.map Entry.tree
  | [] => rfl
  | e :: d => by
      simp only [updateFirst]
      split
      · rfl
      · simp [updateFirst_map_tree k p d]

theorem find?_updateFirst_self (k : String) (p : ℚ) :
    ∀ d : List Entry, ∀ e0, d.find? (fun e => e.tree == k) = some e0 →
      (updateFirst k p d).find? (fun e => e.tree == k)
        = some { e0 with prob := p + e0.prob }
  | [], e0, h => by simp at h
  | e :: d, e0, h => by
      simp only [updateFirst]
      by_cases he : e.tree = k
      · rw [List.find?_cons_of_pos _ (by simp [he])] at h
        cases h
        rw [if_pos he, List.find?_cons_of_pos _ (by simp [he])]
      · rw [List.find?_cons_of_neg _ (by simp [he])] at h
        rw [if_neg he, List.find?_cons_of_neg _ (by simp [he])]
        exact find?_updateFirst_self k p d e0 h

theorem find?_updateFirst_ne (k k1 : String) (p : ℚ) (hne : k1 ≠ k) :
    ∀ d : List Entry,
      (updateFirst k p d).find? (fun e => e.tree == k1)
        = d.find? (fun e => e.tree == k1)
  | [] => rfl
  | e :: d => by
      simp only [updateFirst]
      by_cases he : e.tree = k
      · rw [if_pos he,
          List.find?_cons_of_neg _ (by simp [he]; exact fun h => hne h.symm),
          List.find?_cons_of_neg _ (by simp [he]; exact fun h => hne h.symm)]
      · rw [if_neg he]
        by_cases h1 : e.tree = k1
        · rw [List.find?_cons_of_pos _ (by simp [h1]),
            List.find?_cons_of_pos _ (by simp [h1])]
        · rw [List.find?_cons_of_neg _ (by simp [h1]),
            List.find?_cons_of_neg _ (by simp [h1])]
          exact find?_updateFirst_ne k k1 p hne d

theorem odInsert_eq_ite (pp : String → String) (d : List Entry) (c : RawCand) :
    odInsert pp d c =
      if (d.find? (fun e => e.tree == pp c.treestr)).isSome
      then updateFirst (pp c.treestr) c.prob d
      else d ++ [⟨c.prob, pp c.treestr, c.treestr, c.deriv⟩] := rfl

theorem probD_odInsert (pp : String → String) (d : List Entry) (c : RawCand)
    (k : String) :
    probD (odInsert pp d c) k
      = probD d k + (if pp c.treestr = k then c.prob else 0) := by
  rw [odInsert_eq_ite]
  cases hfind : d.find? (fun e => e.tree == pp c.treestr) with
  | some e0 =>
      rw [if_pos (show (some e0).isSome = true from rfl)]
      by_cases hk : pp c.treestr = k
      · subst hk
        rw [probD, find?_updateFirst_self _ c.prob d e0 hfind, probD, hfind,
          if_pos rfl]
        show c.prob + e0.prob = e0.prob + c.prob
        ring
      · rw [probD, find?_updateFirst_ne _ k c.prob (fun h => hk h.symm) d,
          if_neg hk, ← probD]
        ring
  | none =>
      rw [if_neg (show ¬(none : Option Entry).isSome = true by simp)]
      by_cases hk : pp c.treestr = k
      · subst hk
        rw [probD, List.find?_append, hfind, Option.none_or,
          List.find?_cons_of_pos _ (by simp), probD, hfind, if_pos rfl]
        show c.prob = 0 + c.prob
        ring
      · rw [probD, List.find?_append,
          List.find?_cons_of_neg _ (by simp [hk]), if_neg hk]
        cases hf1 : d.find? (fun e => e.tree == k) <;>
          simp [probD, hf1]

theorem probD_dedup_fold (pp : String → String) (k : String) :
    ∀ (l : List RawCand) (d : List Entry),
      probD (l.foldl (odInsert pp) d) k = probD d k + keyProb pp l k
  | [], d => by simp [keyProb]
  | c :: l, d => by
      rw [List.foldl_cons, probD_dedup_fold pp k l (odInsert pp d c),
        probD_odInsert]
      have hstep : keyProb pp (c :: l) k
          = (if pp c.treestr = k then c.prob else 0) + keyProb pp l k := by
        simp only [keyProb, List.filter_cons]
        by_cases h : pp c.treestr = k
        · simp [h]
        · simp [h]
      rw [hstep]
      ring

theorem dedup_fold_keys_nodup (pp : String → String) :
    ∀ (l : List RawCand) (d : List Entry),
      (d.map Entry.tree).Nodup → ((l.foldl (odInsert pp) d).map Entry.tree).Nodup
  | [], _, h => h
  | c :: l, d, h => by
      rw [List.foldl_cons]
      apply dedup_fold_keys_nodup pp l
      rw [odInsert_eq_ite]
      cases hfind : d.find? (fun e => e.tree == pp c.treestr) with
      | some e0 =>
          rw [if_pos (show (some e0).isSome = true from rfl), updateFirst_map_tree]
          exact h
      | none =>
          rw [if_neg (show ¬(none : Option Entry).isSome = true by simp),
            List.map_append]
          rw [List.find?_eq_none] at hfind
          refine List.Nodup.append h (List.nodup_singleton _) ?_
          intro k hk1 hk2
          simp only [List.map_cons, List.map_nil, List.mem_singleton] at hk2
          subst hk2
          rcases List.mem_map.mp hk1 with ⟨e, he, htree⟩
          exact hfind e he (by simp [htree])

theorem dedup_fold_keys_superset (pp : String → String) :
    ∀ (l : List RawCand) (d : List Entry) (k : String),
      (k ∈ d.map Entry.tree ∨ ∃ c ∈ l, pp c.treestr = k) →
      k ∈ (l.foldl (odInsert pp) d).map Entry.tree
  | [], d, k, h => by
      rcases h with h | ⟨c, hc, _⟩
      · exact h
      · simp at hc
  | c :: l, d, k, h => by
      rw [List.foldl_cons]
      apply dedup_fold_keys_superset pp l
      have hmono : ∀ k1, k1 ∈ d.map Entry.tree →
          k1 ∈ (odInsert pp d c).map Entry.tree := by
        intro k1 hk1
        rw [odInsert_eq_ite]
        split
        · rw [updateFirst_map_tree]; exact hk1
        · rw [List.map_append]; exact List.mem_append_left _ hk1
      rcases h with h | ⟨c1, hc1, hk⟩
      · exact Or.inl (hmono k h)
      · rcases List.mem_cons.mp hc1 with rfl | hc1
        · left
          rw [odInsert_eq_ite]
          cases hfind : d.find? (fun e => e.tree == pp c1.treestr) with
          | some e0 =>
              rw [if_pos (show (some e0).isSome = true from rfl),
                updateFirst_map_tree]
              have hp := List.find?_some hfind
              rw [beq_iff_eq] at hp
              rw [← hk, ← hp]
              exact List.mem_map_of_mem _ (List.mem_of_find?_eq_some hfind)
          | none =>
              rw [if_neg (show ¬(none : Option Entry).isSome = true by simp),
                List.map_append]
              apply List.mem_append_right
              simp [hk]
        · exact Or.inr ⟨c1, hc1, hk⟩

theorem find?_of_mem_nodup :
    ∀ (d : List Entry), (d.map Entry.tree).Nodup → ∀ e ∈ d,
      d.find? (fun x => x.tree == e.tree) = some e
  | [], _, e, h => by simp at h
  | e1 :: d, hnd, e, h => by
      rcases List.mem_cons.mp h with rfl | hmem
      · exact List.find?_cons_of_pos _ (by simp)
      · have hne : e1.tree ≠ e.tree := by
          intro hcontra
          rw [List.map_cons, List.nodup_cons] at hnd
          exact hnd.1 (hcontra ▸ List.mem_map_of_mem Entry.tree hmem)
        rw [List.find?_cons_of_neg _ (by simp [hne])]
        exact find?_of_mem_nodup d
          (by rw [List.map_cons, List.nodup_cons] at hnd; exact hnd.2) e hmem

theorem keyProb_perm (pp : String → String) {l1 l2 : List RawCand}
    (h : List.Perm l1 l2) (k : String) : keyProb pp l1 k = keyProb pp l2 k := by
  unfold keyProb
  exact ((h.filter _).map _).sum_eq

/-! ### C1, C2: stability of the final sort -/

theorem filter_orderedInsert_eq (q : ℚ) (a : Entry) (ha : a.prob = q) :
    ∀ l : List Entry,
      (List.orderedInsert entryGE a l).filter (fun e => decide (e.prob = q))
        = a :: l.filter (fun e => decide (e.prob = q))
  | [] => by simp [List.orderedInsert, ha]
  | b :: l => by
      rw [List.orderedInsert]
      split
      · simp [ha]
      · rename_i hr
        have hbq : b.prob ≠ q := fun hb => hr (le_of_eq (by rw [hb, ha]))
        rw [List.filter_cons_of_neg (by simp [hbq]),
          filter_orderedInsert_eq q a ha l,
          List.filter_cons_of_neg (by simp [hbq])]

theorem filter_orderedInsert_ne (q : ℚ) (a : Entry) (ha : a.prob ≠ q) :
    ∀ l : List Entry,
      (List.orderedInsert entryGE a l).filter (fun e => decide (e.prob = q))
        = l.filter (fun e => decide (e.prob = q))
  | [] => by simp [List.orderedInsert, ha]
  | b :: l => by
      rw [List.orderedInsert]
      split
      · rw [List.filter_cons_of_neg (by simp [ha])]
      · rw [List.filter_cons, List.filter_cons,
          filter_orderedInsert_ne q a ha l]

theorem filter_insertionSort_prob (q : ℚ) :
    ∀ l : List Entry,
      (List.insertionSort entryGE l).filter (fun e => decide (e.prob = q))
        = l.filter (fun e => decide (e.prob = q))
  | [] => rfl
  | a :: l => by
      show (List.orderedInsert entryGE a (List.insertionSort entryGE l)).filter _ = _
      by_cases ha : a.prob = q
      · rw [filter_orderedInsert_eq q a ha, filter_insertionSort_prob q l,
          List.filter_cons_of_pos (by simp [ha])]
      · rw [filter_orderedInsert_ne q a ha, filter_insertionSort_prob q l,
          List.filter_cons_of_neg (by simp [ha])]

/-! ### C2: deduplication and ordering of `getparses` -/

/-- C2 (amended): for every candidate list reaching the
deduplicate-and-sort stage of `getparses` (src/worker.py:56-74), the output
is sorted by probability descending; each post-processed tree occurs in at
most one entry; each entry's probability is the sum of the probabilities of
all input candidates normalizing to that tree; every input candidate is
represented; and ties between equal probabilities are broken by the
first-occurrence order of the entries in the intermediate list (which was
pre-sorted by raw-candidate probability descending) — not, in general, by
the candidates' original derivation order. -/
theorem C2_dedup_ordering (pp : String → String) (l : List RawCand) :
    List.Sorted entryGE (dedupsort pp l)
    ∧ ((dedupsort pp l).map Entry.tree).Nodup
    ∧ (∀ e ∈ dedupsort pp l, e.prob = keyProb pp l e.tree)
    ∧ (∀ c ∈ l, ∃ e ∈ dedupsort pp l, e.tree = pp c.treestr)
    ∧ (∀ q : ℚ, (dedupsort pp l).filter (fun e => decide (e.prob = q))
        = (dedup pp (sortCandsDesc l)).filter (fun e => decide (e.prob = q))) := by
  have hperm : List.Perm (dedupsort pp l) (dedup pp (sortCandsDesc l)) :=
    List.perm_insertionSort entryGE _
  have hpermc : List.Perm (sortCandsDesc l) l := List.perm_insertionSort candGE l
  have hnodupD : ((dedup pp (sortCandsDesc l)).map Entry.tree).Nodup :=
    dedup_fold_keys_nodup pp _ [] (by simp)
  refine ⟨List.sorted_insertionSort entryGE _, ?_, ?_, ?_, ?_⟩
  · exact ((hperm.map Entry.tree).nodup_iff).mpr hnodupD
  · intro e he
    have heD : e ∈ dedup pp (sortCandsDesc l) := hperm.mem_iff.mp he
    have hfind := find?_of_mem_nodup _ hnodupD e heD
    have hval : probD (dedup pp (sortCandsDesc l)) e.tree = e.prob := by
      rw [probD, hfind]; rfl
    have hfold : probD (dedup pp (sortCandsDesc l)) e.tree
        = keyProb pp (sortCandsDesc l) e.tree := by
      rw [show dedup pp (sortCandsDesc l)
            = (sortCandsDesc l).foldl (odInsert pp) [] from rfl,
        probD_dedup_fold]
      simp [probD]
    rw [← hval, hfold, keyProb_perm pp hpermc]
  · intro c hc
    have hk : pp c.treestr ∈ (dedup pp (sortCandsDesc l)).map Entry.tree :=
      dedup_fold_keys_superset pp _ [] _
        (Or.inr ⟨c, hpermc.mem_iff.mpr hc, rfl⟩)
    have hmem : pp c.treestr ∈ (dedupsort pp l).map Entry.tree :=
      ((hperm.map Entry.tree).mem_iff).mpr hk
    rcases List.mem_map.mp hmem with ⟨e, he, htree⟩
    exact ⟨e, he, htree⟩
  · intro q
    exact filter_insertionSort_prob q _

theorem dedupsort_ex2_eval :
    dedupsort pp0 ex2 = [⟨3/10, "b", "b", 2⟩, ⟨3/10, "T1", "a1", 0⟩] := by
  norm_num [dedupsort, dedup, sortCandsDesc, sortEntriesDesc, odInsert,
    updateFirst, ex2, pp0, List.insertionSort, List.orderedInsert, List.foldl]
  decide

theorem C2_dedup_ordering_witness :
    (⟨3/10, "T1", "a1", 0⟩ : Entry).prob
      = keyProb pp0 ex2 (⟨3/10, "T1", "a1", 0⟩ : Entry).tree :=
  (C2_dedup_ordering pp0 ex2).2.2.1 ⟨3/10, "T1", "a1", 0⟩
    (by rw [dedupsort_ex2_eval]
        exact List.mem_cons_of_mem _ (List.mem_cons_self _ _))

/-- C2 (counterexample to the claim as stated): on `ex2` the two merged
derivations of tree `"T1"` (original positions 0 and 1, summed probability
3/10) tie with the candidate at original position 2 (probability 3/10), yet
the returned list puts position 2 first: ties are not broken by the
candidates' original order. -/
theorem C2_dedup_ordering_counterexample :
    (dedupsort pp0 ex2).map Entry.prob = [3/10, 3/10]
    ∧ (dedupsort pp0 ex2).map Entry.deriv = [2, 0]
    ∧ ¬ (dedupsort pp0 ex2).Pairwise
        (fun a b => a.prob = b.prob → a.deriv ≤ b.deriv) := by
  rw [dedupsort_ex2_eval]
  refine ⟨rfl, rfl, ?_⟩
  intro hpw
  rcases List.pairwise_cons.mp hpw with ⟨hrel, _⟩
  have := hrel _ (List.mem_cons_self _ _) rfl
  exact absurd this (by decide)

/-! ### C1: pruning of parse candidates -/

/-- C1 (amended): in `getparses` the pruning rule of `applythreshold` is
applied to the raw candidate list BEFORE deduplication (src/worker.py:55):
with at most 3 raw candidates nothing is removed, and with `n > 3` raw
candidates exactly those whose probability divided by the total probability
mass is strictly greater than `1/n` are kept; the deduplicate-and-sort
stage then runs on the pruned list. -/
theorem C1_threshold (pp : String → String) (l : List RawCand) :
    getparsesCands pp l = dedupsort pp (applythreshold l)
    ∧ (l.length ≤ 3 → applythreshold l = l)
    ∧ (3 < l.length → ∀ c, c ∈ applythreshold l ↔
        (c ∈ l ∧ (1 : ℚ) / l.length < c.prob / probmass l)) := by
  refine ⟨rfl, ?_, ?_⟩
  · intro h
    rw [applythreshold, if_pos h]
  · intro h c
    rw [applythreshold, if_neg (by omega)]
    simp [List.mem_filter]

theorem C1_threshold_witness :
    (⟨"b", 7/20, 2⟩ : RawCand) ∈ applythreshold ex1 ↔
      ((⟨"b", 7/20, 2⟩ : RawCand) ∈ ex1 ∧
        (1 : ℚ) / ex1.length
          < (⟨"b", 7/20, 2⟩ : RawCand).prob / probmass ex1) :=
  (C1_threshold pp0 ex1).2.2 (by decide) ⟨"b", 7/20, 2⟩

/-- C1 (counterexample to the claim as stated): pruning is NOT applied
after deduplication.  On `ex1` the code pipeline prunes the raw list first
and returns the single tree `"b"`, while pruning after deduplication (as
the claim states) would leave 3 candidates — including the merged tree
`"T1"` whose renormalized probability 2/5 exceeds the uniform threshold. -/
theorem getparsesCands_ex1_eval :
    getparsesCands pp0 ex1 = [⟨7/20, "b", "b", 2⟩] := by
  norm_num [getparsesCands, applythreshold, probmass, dedupsort, dedup,
    sortCandsDesc, sortEntriesDesc, odInsert, updateFirst, ex1, pp0,
    List.insertionSort, List.orderedInsert, List.foldl]
  decide

theorem spec_getparsesCands_ex1_eval :
    spec_getparsesCands pp0 ex1 =
      [⟨2/5, "T1", "a1", 0⟩, ⟨7/20, "b", "b", 2⟩, ⟨1/4, "c", "c", 3⟩] := by
  norm_num [spec_getparsesCands, spec_applythresholdEntries, entrymass,
    dedupsort, dedup, sortCandsDesc, sortEntriesDesc, odInsert, updateFirst,
    ex1, pp0, List.insertionSort, List.orderedInsert, List.foldl]
  decide

theorem C1_threshold_counterexample :
    (getparsesCands pp0 ex1).map Entry.tree = ["b"]
    ∧ (spec_getparsesCands pp0 ex1).length = 3
    ∧ getparsesCands pp0 ex1 ≠ spec_getparsesCands pp0 ex1 := by
  rw [getparsesCands_ex1_eval, spec_getparsesCands_ex1_eval]
  refine ⟨rfl, rfl, ?_⟩
  intro h
  exact absurd (congrArg List.length h) (by simp)


/-! ### C3, C4: path lemmas for the tree editor -/

theorem subtreeAt_append :
    ∀ (p1 p2 : List Nat) (t : PTree),
      subtreeAt t (p1 ++ p2) = (subtreeAt t p1).bind (fun s => subtreeAt s p2)
  | [], p2, t => by simp [subtreeAt]
  | i :: p1, p2, t => by
      cases t with
      | term j => simp [subtreeAt]
      | node l cs =>
          cases h : cs[i]? with
          | none => simp [subtreeAt, h]
          | some c =>
              simp only [List.cons_append, subtreeAt, h]
              exact subtreeAt_append p1 p2 c

theorem replaceAt_isSome :
    ∀ (q : List Nat) (t s new : PTree), subtreeAt t q = some s →
      ∃ r, replaceAt t q new = some r
  | [], _, _, new, _ => ⟨new, by simp [replaceAt]⟩
  | a :: q, t, s, new, h => by
      cases t with
      | term j => simp [subtreeAt] at h
      | node l cs =>
          cases ha : cs[a]? with
          | none => simp [subtreeAt, ha] at h
          | some c =>
              simp only [subtreeAt, ha] at h
              obtain ⟨r, hr⟩ := replaceAt_isSome q c s new h
              exact ⟨.node l (cs.set a r), by simp [replaceAt, ha, hr]⟩

theorem spliceAt_eq :
    ∀ (q : List Nat) (t : PTree) (i : Nat) (lab : String) (cs : List PTree)
      (lx : String) (csx : List PTree),
      subtreeAt t q = some (.node lab cs) → cs[i]? = some (.node lx csx) →
      spliceAt t (q ++ [i])
        = replaceAt t q (.node lab (cs.take i ++ csx ++ cs.drop (i + 1)))
  | [], t, i, lab, cs, lx, csx, hq, hi => by
      have ht : t = .node lab cs := by simpa [subtreeAt] using hq
      subst ht
      simp [spliceAt, replaceAt, hi]
  | a :: q, t, i, lab, cs, lx, csx, hq, hi => by
      cases t with
      | term j => simp [subtreeAt] at hq
      | node l0 cs0 =>
          cases ha : cs0[a]? with
          | none => simp [subtreeAt, ha] at hq
          | some c =>
              simp only [subtreeAt, ha] at hq
              have ih := spliceAt_eq q c i lab cs lx csx hq hi
              have lhs_eq : spliceAt (.node l0 cs0) ((a :: q) ++ [i])
                  = (spliceAt c (q ++ [i])).map
                    (fun c1 => .node l0 (cs0.set a c1)) := by
                cases q with
                | nil => simp [spliceAt, ha]
                | cons b q1 => simp [spliceAt, ha]
              have rhs_eq : replaceAt (.node l0 cs0) (a :: q)
                    (.node lab (cs.take i ++ csx ++ cs.drop (i + 1)))
                  = (replaceAt c q
                      (.node lab (cs.take i ++ csx ++ cs.drop (i + 1)))).map
                    (fun c1 => .node l0 (cs0.set a c1)) := by
                simp [replaceAt, ha]
              rw [lhs_eq, rhs_eq, ih]

/-! ### C3: rejection of cyclic and only-child reattachment -/

/-- C3: a reattach request moving node `x` under node `y` is rejected — an
error is returned, the tree sent back is the unchanged input tree, and the
edit-action counter is not incremented — whenever `y` is `x` itself or a
descendant of `x` (its path extends `x`'s path), and likewise whenever `x`
is the only child of its parent. -/
theorem C3_reattach (t : PTree) (x y : List Nat) (xt yt : PTree)
    (hx : subtreeAt t x = some xt) (hy : subtreeAt t y = some yt)
    (hrej : x.isPrefixOf y = true ∨
      (∃ lab c, subtreeAt t x.dropLast = some (.node lab [c]))) :
    ∃ msg, msg ≠ "" ∧ reattach t x y = some ⟨msg, t, false⟩ := by
  by_cases hpre : x.isPrefixOf y
  · refine ⟨descendantError, by decide, ?_⟩
    simp [reattach, hx, hy, hpre]
  · rcases hrej with hpre1 | ⟨lab, c, hq⟩
    · exact absurd hpre1 hpre
    · refine ⟨onlyChildError, by decide, ?_⟩
      simp [reattach, hx, hy, hpre, hq]

theorem C3_reattach_witness :
    ∃ msg, msg ≠ "" ∧ reattach tEx [0] [0, 0]
      = some ⟨msg, tEx, false⟩ :=
  C3_reattach tEx [0] [0, 0]
    (.node "NP" [.node "DT" [.term 0], .node "NN" [.term 1]])
    (.node "DT" [.term 0]) rfl rfl (Or.inl rfl)

/-! ### C4: deletion of root and POS nodes rejected, others spliced -/

/-- C4: a delete-node request for the root (path `[]`) or for a POS node
(first child a token index) is rejected with an error and the tree is
returned unchanged; for any other internal node (here the node at child
position `i` of the parent at path `q`) the node's children are spliced
into the parent's child list in its place and the node itself removed (the
result being canonicalized, as after every successful edit). -/
theorem C4_deletenode (t : PTree) :
    (∀ p lab cs, subtreeAt t p = some (.node lab cs) →
      (p = [] ∨ posNode (.node lab cs) = true) →
      deletenode t p = some ⟨rootPosError, t, false⟩)
    ∧ (∀ q i lab cs lx csx, subtreeAt t q = some (.node lab cs) →
        cs[i]? = some (.node lx csx) → csx ≠ [] →
        posNode (.node lx csx) = false →
        ∃ t1, replaceAt t q (.node lab (cs.take i ++ csx ++ cs.drop (i + 1)))
            = some t1
          ∧ deletenode t (q ++ [i]) = some ⟨"", canonicalize t1, true⟩) := by
  constructor
  · intro p lab cs hp hcond
    rcases hcond with rfl | hpos
    · simp [deletenode, hp]
    · by_cases hnil : p = []
      · subst hnil
        simp [deletenode, hp]
      · cases cs with
        | nil => simp [posNode] at hpos
        | cons c rest =>
            cases c with
            | term j => simp [deletenode, hp, hnil]
            | node l1 cs1 => simp [posNode] at hpos
  · intro q i lab cs lx csx hq hi hcsx hpos
    have hsub : subtreeAt t (q ++ [i]) = some (.node lx csx) := by
      rw [subtreeAt_append, hq]
      simp [subtreeAt, hi]
    have hsplice := spliceAt_eq q t i lab cs lx csx hq hi
    obtain ⟨t1, ht1⟩ := replaceAt_isSome q t (.node lab cs)
      (.node lab (cs.take i ++ csx ++ cs.drop (i + 1))) hq
    refine ⟨t1, ht1, ?_⟩
    cases csx with
    | nil => exact absurd rfl hcsx
    | cons c0 rest =>
        cases c0 with
        | term j => simp [posNode] at hpos
        | node l0 cs0 =>
            simp only [List.append_assoc, List.cons_append] at ht1
            simp [deletenode, hsub, hsplice, ht1]

theorem C4_deletenode_witness :
    deletenode tEx [] = some ⟨rootPosError, tEx, false⟩ :=
  (C4_deletenode tEx).1 [] "ROOT"
    [.node "NP" [.node "DT" [.term 0], .node "NN" [.term 1]],
      .node "VB" [.term 2]]
    rfl (Or.inl rfl)


/-! ### C9: relabelling replaces one component but is not re-validated -/

/-- C9: component-locality of `newlabel` holds — replacing the category of
the node `NN-SB/Nom` keeps `-SB` and `/Nom`, replacing or emptying the
function keeps the category and morph, emptying the morph keeps the rest,
and no other node changes — but the operation succeeds (returns a tree, no
error) even though the new category `"XX"` is not in the grammar label sets
used by `validate`: no re-validation follows the replacement (the FIXME at
src/app.py:647 records that the label is checked only BEFORE replacing). -/
theorem C9_newlabel_no_revalidation :
    newlabel tEx3 [0] (.cat "XX")
      = some (.node "ROOT" [.node "XX-SB/Nom" [.term 0]])
    ∧ newlabel tEx3 [0] (.func "OA")
      = some (.node "ROOT" [.node "NN-OA/Nom" [.term 0]])
    ∧ newlabel tEx3 [0] (.func "")
      = some (.node "ROOT" [.node "NN/Nom" [.term 0]])
    ∧ newlabel tEx3 [0] (.morph "")
      = some (.node "ROOT" [.node "NN-SB" [.term 0]])
    ∧ "XX" ∉ ["ROOT", "NP", "VB", "DT", "NN"] := by
  refine ⟨?_, ?_, ?_, ?_, by decide⟩ <;> rfl


/-! ### C6: order theory for the constraint canonicalization -/

theorem charListLt_irrefl : ∀ a, charListLt a a = false
  | [] => rfl
  | c :: cs => by
      simp only [charListLt]
      rw [if_neg (lt_irrefl c), if_neg (lt_irrefl c)]
      exact charListLt_irrefl cs

theorem charListLt_trans : ∀ a b c, charListLt a b = true →
    charListLt b c = true → charListLt a c = true
  | [], [], _, h1, _ => by simp [charListLt] at h1
  | [], _ :: _, [], _, h2 => by simp [charListLt] at h2
  | [], _ :: _, _ :: _, _, _ => rfl
  | _ :: _, [], _, h1, _ => by simp [charListLt] at h1
  | _ :: _, _ :: _, [], _, h2 => by simp [charListLt] at h2
  | a :: as, b :: bs, c :: cs, h1, h2 => by
      simp only [charListLt] at h1 h2 ⊢
      by_cases hab : a < b
      · by_cases hbc : b < c
        · rw [if_pos (lt_trans hab hbc)]
        · rw [if_neg hbc] at h2
          by_cases hcb : c < b
          · rw [if_pos hcb] at h2
            simp at h2
          · have hbceq : b = c :=
              le_antisymm (le_of_not_lt hcb) (le_of_not_lt hbc)
            subst hbceq
            rw [if_pos hab]
      · rw [if_neg hab] at h1
        by_cases hba : b < a
        · rw [if_pos hba] at h1
          simp at h1
        · rw [if_neg hba] at h1
          have habeq : a = b :=
            le_antisymm (le_of_not_lt hba) (le_of_not_lt hab)
          subst habeq
          by_cases hac : a < c
          · rw [if_pos hac]
          · rw [if_neg hac] at h2 ⊢
            by_cases hca : c < a
            · rw [if_pos hca] at h2
              simp at h2
            · rw [if_neg hca] at h2 ⊢
              exact charListLt_trans as bs cs h1 h2

theorem charListLt_asymm : ∀ a b, charListLt a b = true →
    charListLt b a = true → False
  | [], [], h1, _ => by simp [charListLt] at h1
  | [], _ :: _, _, h2 => by simp [charListLt] at h2
  | _ :: _, [], h1, _ => by simp [charListLt] at h1
  | a :: as, b :: bs, h1, h2 => by
      simp only [charListLt] at h1 h2
      by_cases hab : a < b
      · rw [if_neg (lt_asymm hab), if_pos hab] at h2
        simp at h2
      · rw [if_neg hab] at h1
        by_cases hba : b < a
        · rw [if_pos hba] at h1
          simp at h1
        · rw [if_neg hba] at h1
          rw [if_neg hba, if_neg hab] at h2
          exact charListLt_asymm as bs h1 h2

theorem charListLt_conn : ∀ a b, charListLt a b = false →
    charListLt b a = false → a = b
  | [], [], _, _ => rfl
  | [], _ :: _, h1, _ => by simp [charListLt] at h1
  | _ :: _, [], _, h2 => by simp [charListLt] at h2
  | a :: as, b :: bs, h1, h2 => by
      simp only [charListLt] at h1 h2
      by_cases hab : a < b
      · rw [if_pos hab] at h1
        simp at h1
      · by_cases hba : b < a
        · rw [if_pos hba] at h2
          simp at h2
        · have : a = b := le_antisymm (le_of_not_lt hba) (le_of_not_lt hab)
          subst this
          rw [if_neg hab, if_neg hab] at h1
          rw [if_neg hab, if_neg hab] at h2
          rw [charListLt_conn as bs h1 h2]

theorem intListLe_total : ∀ a b, intListLe a b = true ∨ intListLe b a = true
  | [], _ => Or.inl rfl
  | _ :: _, [] => Or.inr rfl
  | a :: as, b :: bs => by
      simp only [intListLe]
      rcases lt_trichotomy a b with h | h | h
      · exact Or.inl (by rw [if_pos h])
      · subst h
        simp only [if_neg (lt_irrefl a)]
        exact intListLe_total as bs
      · exact Or.inr (by rw [if_pos h])

theorem intListLe_trans : ∀ a b c, intListLe a b = true →
    intListLe b c = true → intListLe a c = true
  | [], _, _, _, _ => rfl
  | _ :: _, [], _, h1, _ => by simp [intListLe] at h1
  | _ :: _, _ :: _, [], _, h2 => by simp [intListLe] at h2
  | a :: as, b :: bs, c :: cs, h1, h2 => by
      simp only [intListLe] at h1 h2 ⊢
      by_cases hab : a < b
      · by_cases hbc : b < c
        · rw [if_pos (lt_trans hab hbc)]
        · rw [if_neg hbc] at h2
          by_cases hcb : c < b
          · rw [if_pos hcb] at h2
            simp at h2
          · have hbceq : b = c :=
              le_antisymm (le_of_not_lt hcb) (le_of_not_lt hbc)
            subst hbceq
            rw [if_pos hab]
      · rw [if_neg hab] at h1
        by_cases hba : b < a
        · rw [if_pos hba] at h1
          simp at h1
        · rw [if_neg hba] at h1
          have habeq : a = b :=
            le_antisymm (le_of_not_lt hba) (le_of_not_lt hab)
          subst habeq
          by_cases hac : a < c
          · rw [if_pos hac]
          · rw [if_neg hac] at h2 ⊢
            by_cases hca : c < a
            · rw [if_pos hca] at h2
              simp at h2
            · rw [if_neg hca] at h2 ⊢
              exact intListLe_trans as bs cs h1 h2

theorem intListLe_antisymm : ∀ a b, intListLe a b = true →
    intListLe b a = true → a = b
  | [], [], _, _ => rfl
  | [], _ :: _, _, h2 => by simp [intListLe] at h2
  | _ :: _, [], h1, _ => by simp [intListLe] at h1
  | a :: as, b :: bs, h1, h2 => by
      simp only [intListLe] at h1 h2
      by_cases hab : a < b
      · rw [if_neg (lt_asymm hab), if_pos hab] at h2
        simp at h2
      · by_cases hba : b < a
        · rw [if_neg hab, if_pos hba] at h1
          simp at h1
        · have : a = b := le_antisymm (le_of_not_lt hba) (le_of_not_lt hab)
          subst this
          simp only [if_neg (lt_irrefl a)] at h1 h2
          rw [intListLe_antisymm as bs h1 h2]

theorem stringDataEq : ∀ {s t : String}, s.data = t.data → s = t
  | ⟨d1⟩, ⟨d2⟩, h => by
      cases h
      rfl

theorem pairLE_iff (a b : String × List Int) :
    pairLE a b ↔ (charListLt a.1.data b.1.data = true ∨
      (a.1 = b.1 ∧ intListLe a.2 b.2 = true)) := by
  unfold pairLE pairLEb
  by_cases h1 : charListLt a.1.data b.1.data = true
  · simp [h1]
  · rw [if_neg h1]
    by_cases h2 : charListLt b.1.data a.1.data = true
    · rw [if_pos h2]
      constructor
      · intro h
        simp at h
      · rintro (hc | ⟨heq, _⟩)
        · exact absurd hc h1
        · rw [heq] at h2
          simp [charListLt_irrefl] at h2
    · have heq : a.1 = b.1 := stringDataEq
        (charListLt_conn _ _ (by simpa using h1) (by simpa using h2))
      rw [if_neg h2]
      simp [heq, charListLt_irrefl]

instance : IsTotal (String × List Int) pairLE := by
  constructor
  intro a b
  rw [pairLE_iff, pairLE_iff]
  by_cases h1 : charListLt a.1.data b.1.data = true
  · exact Or.inl (Or.inl h1)
  · by_cases h2 : charListLt b.1.data a.1.data = true
    · exact Or.inr (Or.inl h2)
    · have heq : a.1 = b.1 := stringDataEq
        (charListLt_conn _ _ (by simpa using h1) (by simpa using h2))
      rcases intListLe_total a.2 b.2 with h | h
      · exact Or.inl (Or.inr ⟨heq, h⟩)
      · exact Or.inr (Or.inr ⟨heq.symm, h⟩)

instance : IsTrans (String × List Int) pairLE := by
  constructor
  intro a b c hab hbc
  rw [pairLE_iff] at hab hbc ⊢
  rcases hab with h1 | ⟨h1, h1b⟩
  · rcases hbc with h2 | ⟨h2, h2b⟩
    · exact Or.inl (charListLt_trans _ _ _ h1 h2)
    · exact Or.inl (by rw [← h2]; exact h1)
  · rcases hbc with h2 | ⟨h2, h2b⟩
    · exact Or.inl (by rw [h1]; exact h2)
    · exact Or.inr ⟨h1.trans h2, intListLe_trans _ _ _ h1b h2b⟩

instance : IsAntisymm (String × List Int) pairLE := by
  constructor
  intro a b hab hba
  rw [pairLE_iff] at hab hba
  rcases hab with h1 | ⟨h1, h1b⟩
  · rcases hba with h2 | ⟨h2, h2b⟩
    · exact (charListLt_asymm _ _ h1 h2).elim
    · rw [h2] at h1
      simp [charListLt_irrefl] at h1
  · rcases hba with h2 | ⟨h2, h2b⟩
    · rw [h1] at h2
      simp [charListLt_irrefl] at h2
    · exact Prod.ext h1 (intListLe_antisymm _ _ h1b h2b)

/-! ### C6: canonical order-insensitivity of parseconstraints -/

theorem splitOnChar_ne_nil (sep : Char) : ∀ l, splitOnChar sep l ≠ []
  | [] => by simp [splitOnChar]
  | c :: rest => by
      simp only [splitOnChar]
      split
      · simp
      · cases hr : splitOnChar sep rest with
        | nil => exact absurd hr (splitOnChar_ne_nil sep rest)
        | cons h t => simp [hr]

theorem splitOnChar_single_nil (sep : Char) :
    ∀ l, splitOnChar sep l = [[]] → l = []
  | [], _ => rfl
  | c :: rest, h => by
      exfalso
      simp only [splitOnChar] at h
      split at h
      · exact splitOnChar_ne_nil sep rest (by simpa using h)
      · cases hr : splitOnChar sep rest with
        | nil => exact splitOnChar_ne_nil sep rest hr
        | cons h1 t =>
            rw [hr] at h
            simp at h

theorem constrMapM_perm {l1 l2 : List (List Char)} (h : l1.Perm l2) :
    (constrMapM l1 = none ∧ constrMapM l2 = none) ∨
    (∃ xs1 xs2, constrMapM l1 = some xs1 ∧ constrMapM l2 = some xs2 ∧
      xs1.Perm xs2) := by
  induction h with
  | nil => exact Or.inr ⟨[], [], rfl, rfl, List.Perm.nil⟩
  | cons x h ih =>
      cases hx : constr x with
      | none => exact Or.inl ⟨by simp [constrMapM, hx], by simp [constrMapM, hx]⟩
      | some cx =>
          rcases ih with ⟨h1, h2⟩ | ⟨xs1, xs2, h1, h2, hp⟩
          · exact Or.inl ⟨by simp [constrMapM, hx, h1], by simp [constrMapM, hx, h2]⟩
          · exact Or.inr ⟨cx :: xs1, cx :: xs2, by simp [constrMapM, hx, h1],
              by simp [constrMapM, hx, h2], hp.cons cx⟩
  | swap x y l =>
      cases hx : constr x with
      | none =>
          cases hy : constr y with
          | none => exact Or.inl ⟨by simp [constrMapM, hx, hy], by simp [constrMapM, hx, hy]⟩
          | some cy => exact Or.inl ⟨by simp [constrMapM, hx, hy], by simp [constrMapM, hx, hy]⟩
      | some cx =>
          cases hy : constr y with
          | none => exact Or.inl ⟨by simp [constrMapM, hx, hy], by simp [constrMapM, hx, hy]⟩
          | some cy =>
              cases hl : constrMapM l with
              | none =>
                  exact Or.inl ⟨by simp [constrMapM, hx, hy, hl],
                    by simp [constrMapM, hx, hy, hl]⟩
              | some xs =>
                  exact Or.inr ⟨cy :: cx :: xs, cx :: cy :: xs,
                    by simp [constrMapM, hx, hy, hl],
                    by simp [constrMapM, hx, hy, hl], List.Perm.swap _ _ _⟩
  | trans h1 h2 ih1 ih2 =>
      rcases ih1 with ⟨ha, hb⟩ | ⟨xs1, xs2, ha, hb, hp⟩
      · rcases ih2 with ⟨hc, hd⟩ | ⟨ys1, ys2, hc, hd, hq⟩
        · exact Or.inl ⟨ha, hd⟩
        · rw [hb] at hc
          cases hc
      · rcases ih2 with ⟨hc, hd⟩ | ⟨ys1, ys2, hc, hd, hq⟩
        · rw [hb] at hc
          cases hc
        · rw [hb] at hc
          injection hc with hce
          subst hce
          exact Or.inr ⟨xs1, ys2, ha, hd, hp.trans hq⟩

theorem sortPairs_perm_eq {xs1 xs2 : List (String × List Int)}
    (h : xs1.Perm xs2) : sortPairs xs1 = sortPairs xs2 :=
  List.eq_of_perm_of_sorted
    ((List.perm_insertionSort pairLE xs1).trans
      (h.trans (List.perm_insertionSort pairLE xs2).symm))
    (List.sorted_insertionSort pairLE xs1)
    (List.sorted_insertionSort pairLE xs2)



theorem parseSide_perm (s1 s2 : String)
    (h : (splitOnChar '\t' s1.data).Perm (splitOnChar '\t' s2.data)) :
    parseSide s1 = parseSide s2 := by
  by_cases h1 : s1.data = []
  · have hs1 : splitOnChar '\t' s1.data = [[]] := by rw [h1]; rfl
    rw [hs1] at h
    have h2 : s2.data = [] :=
      splitOnChar_single_nil '\t' _ (List.singleton_perm.mp h).symm
    rw [parseSide, parseSide, if_pos h1, if_pos h2]
  · have h2 : s2.data ≠ [] := by
      intro hc
      apply h1
      have hs2 : splitOnChar '\t' s2.data = [[]] := by rw [hc]; rfl
      rw [hs2] at h
      exact splitOnChar_single_nil '\t' _ (List.perm_singleton.mp h)
    rw [parseSide, parseSide, if_neg h1, if_neg h2]
    rcases constrMapM_perm h with ⟨ha, hb⟩ | ⟨xs1, xs2, ha, hb, hp⟩
    · rw [ha, hb]
    · rw [ha, hb]
      simp [sortPairs_perm_eq hp]

/-- C6: `parseconstraints` applied to the require string `"NP 0-2\tPP 0-1,4"`
and an empty block string yields the require set
`(("NP", [0,1,2]), ("PP", [0,1,4]))` and an empty block set (a range `a-b`
expands to all integers from `a` to `b` inclusive, comma-separated items
concatenate); and for any two require strings (and block strings) whose
tab-separated constraint items are permutations of each other,
`parseconstraints` returns the same canonical value, because both sides are
sorted. -/
theorem C6_parseconstraints :
    parseconstraints "NP 0-2\tPP 0-1,4" ""
      = some ([("NP", [0, 1, 2]), ("PP", [0, 1, 4])], [])
    ∧ (∀ r1 r2 b1 b2 : String,
        (splitOnChar '\t' r1.data).Perm (splitOnChar '\t' r2.data) →
        (splitOnChar '\t' b1.data).Perm (splitOnChar '\t' b2.data) →
        parseconstraints r1 b1 = parseconstraints r2 b2) := by
  constructor
  · decide
  · intro r1 r2 b1 b2 hr hb
    unfold parseconstraints
    rw [parseSide_perm r1 r2 hr, parseSide_perm b1 b2 hb]

theorem C6_parseconstraints_witness :
    parseconstraints "PP 0-1,4\tNP 0-2" "" = parseconstraints "NP 0-2\tPP 0-1,4" "" :=
  C6_parseconstraints.2 "PP 0-1,4\tNP 0-2" "NP 0-2\tPP 0-1,4" "" ""
    (by decide) (List.Perm.refl _)


/-! ### C7: entropy lemmas -/

theorem entropy_replicate (k : ℕ) (c : ℚ) (hk : k ≠ 0) (hc : 0 < c) :
    entropy (List.replicate k c) = Real.logb 2 k := by
  have hne : List.replicate k c ≠ [] := by simp [hk]
  rw [entropy, if_neg hne]
  have hsum : (List.replicate k c).sum = (k : ℚ) * c := by
    simp [List.sum_replicate, nsmul_eq_mul]
  simp only [hsum]
  rw [List.map_replicate, List.map_replicate, List.sum_replicate]
  have hc0 : (c : ℝ) ≠ 0 := by exact_mod_cast ne_of_gt hc
  have hk0 : ((k : ℕ) : ℝ) ≠ 0 := Nat.cast_ne_zero.mpr hk
  have hX : ((c : ℝ) / (((k : ℚ) * c : ℚ) : ℝ)) = ((k : ℝ))⁻¹ := by
    push_cast
    rw [mul_comm, ← div_div, div_self hc0, one_div]
  rw [hX, nsmul_eq_mul, Real.logb_inv]
  field_simp

theorem log98_bounds :
    (8645313/73400320 - 1/14680064 : ℝ) ≤ Real.log (9/8) ∧
    Real.log (9/8) ≤ 8645313/73400320 + 1/14680064 := by
  have hx : |(-(1/8) : ℝ)| = 1/8 := by
    rw [abs_neg]
    exact abs_of_pos (by norm_num)
  have h := Real.abs_log_sub_add_sum_range_le
    (show |(-(1/8) : ℝ)| < 1 by rw [hx]; norm_num) 7
  rw [hx, show (1:ℝ) - -(1/8) = 9/8 by norm_num, abs_le] at h
  simp only [Finset.sum_range_succ, Finset.sum_range_zero] at h
  norm_num at h
  constructor <;> linarith [h.1, h.2]

theorem log54_bounds :
    (51888063757/232532213760 - 1/50331648 : ℝ) ≤ Real.log (5/4) ∧
    Real.log (5/4) ≤ 51888063757/232532213760 + 1/50331648 := by
  have hx : |(-(1/4) : ℝ)| = 1/4 := by
    rw [abs_neg]
    exact abs_of_pos (by norm_num)
  have h := Real.abs_log_sub_add_sum_range_le
    (show |(-(1/4) : ℝ)| < 1 by rw [hx]; norm_num) 12
  rw [hx, show (1:ℝ) - -(1/4) = 5/4 by norm_num, abs_le] at h
  simp only [Finset.sum_range_succ, Finset.sum_range_zero] at h
  norm_num at h
  constructor <;> linarith [h.1, h.2]

theorem log910_eq : Real.log ((9:ℝ)/10) = Real.log (9/8) - Real.log (5/4) := by
  rw [← Real.log_div (by norm_num) (by norm_num)]
  norm_num

theorem log120_eq : Real.log ((1:ℝ)/20) = -(4 * Real.log 2 + Real.log (5/4)) := by
  rw [one_div, Real.log_inv,
    show (20:ℝ) = 2^4 * (5/4) by norm_num,
    Real.log_mul (by norm_num) (by norm_num), Real.log_pow]
  push_cast
  ring

theorem entropy905_eq :
    entropy [9/10, 1/20, 1/20]
      = ((2/5) * Real.log 2 + Real.log (5/4) - (9/10) * Real.log (9/8))
          / Real.log 2 := by
  have hL2 : Real.log 2 ≠ 0 := ne_of_gt (Real.log_pos (by norm_num))
  have hsum : ([9/10, 1/20, 1/20] : List ℚ).sum = 1 := by norm_num
  rw [entropy, if_neg (by simp)]
  simp only [hsum, List.map_cons, List.map_nil, List.sum_cons, List.sum_nil]
  push_cast
  norm_num
  rw [Real.logb, Real.logb, log910_eq, log120_eq]
  field_simp
  ring

theorem entropy905_bounds :
    (56899/100000 : ℝ) < entropy [9/10, 1/20, 1/20] ∧
    entropy [9/10, 1/20, 1/20] < 568999/1000000 := by
  have hE := entropy905_eq
  have h98 := log98_bounds
  have h54 := log54_bounds
  have hL2lo := Real.log_two_gt_d9
  have hL2hi := Real.log_two_lt_d9
  have hL2pos : (0:ℝ) < Real.log 2 := Real.log_pos (by norm_num)
  constructor
  · rw [hE, lt_div_iff₀ hL2pos]
    nlinarith [h98.1, h98.2, h54.1, h54.2, hL2lo, hL2hi]
  · rw [hE, div_lt_iff₀ hL2pos]
    nlinarith [h98.1, h98.2, h54.1, h54.2, hL2lo, hL2hi]

/-- C7 (amended): entropy of a uniform distribution over k candidates is
log2 k; entropy of `[1.0]` is 0; entropy of the empty sequence is 0;
entropy of `[0.25, 0.25, 0.25, 0.25]` is exactly 2; and entropy of
`[0.9, 0.05, 0.05]` is within 1e-5 of 0.569 — but NOT within 1e-6 (its
value is 0.5689955935..., about 4.4e-6 below 0.569, as the doctest at
src/app.py:1016-1017 records). -/
theorem C7_entropy :
    (∀ (k : ℕ) (c : ℚ), k ≠ 0 → 0 < c →
      entropy (List.replicate k c) = Real.logb 2 k)
    ∧ entropy [1] = 0
    ∧ entropy [] = 0
    ∧ entropy [1/4, 1/4, 1/4, 1/4] = 2
    ∧ |entropy [9/10, 1/20, 1/20] - 0.569| < 1/100000 := by
  refine ⟨entropy_replicate, ?_, rfl, ?_, ?_⟩
  · have h := entropy_replicate 1 1 (by norm_num) (by norm_num)
    simpa [Real.logb_one] using h
  · have h := entropy_replicate 4 (1/4) (by norm_num) (by norm_num)
    rw [show List.replicate 4 ((1:ℚ)/4) = [1/4, 1/4, 1/4, 1/4] from rfl] at h
    rw [h, show ((4:ℕ):ℝ) = 2^2 by norm_num, Real.logb_pow,
      Real.logb_self_eq_one (by norm_num)]
    norm_num
  · have h := entropy905_bounds
    have hneg : entropy [9/10, 1/20, 1/20] - 0.569 < 0 := by
      have h2 := h.2
      norm_num at h2 ⊢
      linarith
    rw [abs_of_neg hneg]
    have h1 := h.1
    norm_num at h1 ⊢
    linarith

theorem C7_entropy_witness :
    entropy (List.replicate 2 (1/2)) = Real.logb 2 ((2:ℕ) : ℝ) :=
  C7_entropy.1 2 (1/2) (by norm_num) (by norm_num)

/-- C7 (counterexample to the claim as stated): the entropy of
`[0.9, 0.05, 0.05]` differs from 0.569 by MORE than 1e-6 (the exact value
is 0.5689955935892812 per the doctest at src/app.py:1016-1017, which is
about 4.4e-6 below 0.569). -/
theorem C7_entropy_counterexample :
    (1:ℝ)/1000000 < |entropy [9/10, 1/20, 1/20] - 0.569| := by
  have h := entropy905_bounds
  have hneg : entropy [9/10, 1/20, 1/20] - 0.569 < 0 := by
    have h2 := h.2
    norm_num at h2 ⊢
    linarith
  rw [abs_of_neg hneg]
  have h2 := h.2
  norm_num at h2 ⊢
  linarith

end Activedop
